import Mathlib

/-!
Verification development for the `rocket-caching-layer` repository
(`src/src/lib.rs` and `src/src/main.rs`): a caching compression rewriter
for a static file server.  The Rust source is shallowly embedded below:
pure parsing code becomes Lean functions on character lists, the
concurrent `DashMap`-backed compression cache becomes an explicit
association-list state with atomic transactions (`try_begin`, `finish`,
`is_ready` — the three transactions performed on the map by `dispatch`
and `rewrite`), and the background compression task becomes a function
over an explicit compressor oracle with fuel for its unbounded loops.
-/

namespace RCL

/-! ## `Algorithm` (src/src/lib.rs lines 17-42) -/

/-- Supported compression algorithms (`enum Algorithm { Gzip }`). -/
inductive Algorithm
  | Gzip
deriving DecidableEq

/-- `Algorithm::name` — the canonical lowercase token. -/
def Algorithm.name : Algorithm → String
  | .Gzip => "gzip"

/-- `Algorithm::from_name` — exact, case-sensitive match on the token.
Strings are represented by their character lists. -/
def Algorithm.from_name (cs : List Char) : Option Algorithm :=
  if cs = "gzip".data then some .Gzip else none

/-! ## String helpers mirroring the Rust `str` operations used by the source -/

/-- Rust `char::is_whitespace`: the Unicode `White_Space` property. -/
def rustIsWhitespace (c : Char) : Bool :=
  ([0x09, 0x0A, 0x0B, 0x0C, 0x0D, 0x20, 0x85, 0xA0, 0x1680,
    0x2000, 0x2001, 0x2002, 0x2003, 0x2004, 0x2005, 0x2006, 0x2007,
    0x2008, 0x2009, 0x200A, 0x2028, 0x2029, 0x202F, 0x205F, 0x3000] : List Nat).contains c.toNat

/-- Rust `str::trim`: strip `White_Space` characters from both ends. -/
def trimChars (cs : List Char) : List Char :=
  ((cs.dropWhile rustIsWhitespace).reverse.dropWhile rustIsWhitespace).reverse

/-- Rust `str::split(sep)`: split at every separator; `n` separators give
`n+1` (possibly empty) items, so the result is never empty. -/
def splitSep (sep : Char) : List Char → List (List Char)
  | [] => [[]]
  | c :: cs =>
    if c = sep then [] :: splitSep sep cs
    else
      match splitSep sep cs with
      | [] => [[c]]
      | g :: gs => (c :: g) :: gs

/-- Rust `str::split_once(sep)` (also used at byte level for `OsStr`):
split at the first separator, or `none` if the separator is absent. -/
def splitOnce {α : Type} [DecidableEq α] (sep : α) : List α → Option (List α × List α)
  | [] => none
  | c :: cs =>
    if c = sep then some ([], cs)
    else (splitOnce sep cs).map (fun pr => (c :: pr.1, pr.2))

/-! ## Rust `f32` parsing (`val.trim().parse::<f32>()`)

The source compares the parsed quality weight against `0.0`.  We embed
the result of `f32::from_str` as an exact value: the decimal forms
become an exact fraction `num / den` (`den` is a positive power of ten
by construction), and the `inf`/`infinity`/`nan` forms get dedicated
markers (they compare unequal to `0.0`).  The only question the source
asks of the parsed value is whether it equals `0.0f32`; a finite decimal
rounds to float zero exactly when its magnitude is at most `2^-150`
(half the smallest subnormal `2^-149`, with the tie rounding to the even
value zero), which is what `F32Val.isZero` decides:
`|num / den| ≤ 2^-150 ↔ |num| * 2^150 ≤ den`. -/

/-- Result of a successful Rust `f32` parse, kept exact as `num / den`. -/
inductive F32Val
  | num (n : Int) (den : Nat)
  | inf (neg : Bool)
  | nan
deriving DecidableEq

/-- Whether the parsed value compares equal to `0.0f32`. -/
def F32Val.isZero : F32Val → Bool
  | .num n den => decide (n.natAbs * 2 ^ 150 ≤ den)
  | _ => false

/-- Numeric value of a digit string (most significant first). -/
def digitsToNat (ds : List Char) : Nat :=
  ds.foldl (fun a c => 10 * a + (c.toNat - 48)) 0

/-- ASCII lowercasing, for the case-insensitive special float forms. -/
def lowerAscii (cs : List Char) : List Char := cs.map Char.toLower

/-- Exact value of `[sign] ip . fp e ex` as a fraction. -/
def decValue (neg : Bool) (ip fp : List Char) (ex : Int) : F32Val :=
  let base : Int := ((digitsToNat ip * 10 ^ fp.length + digitsToNat fp : Nat) : Int)
  let pr : Int × Nat :=
    match ex with
    | .ofNat k => (base * (10 ^ k : Nat), 10 ^ fp.length)
    | .negSucc k => (base, 10 ^ fp.length * 10 ^ (k + 1))
  .num (if neg then -pr.1 else pr.1) pr.2

/-- Rust `f32::from_str` grammar: optional sign, then `inf`/`infinity`/
`nan` (case-insensitive) or a decimal significand (digits with an
optional point, at least one digit) with an optional exponent. -/
def parseF32 (cs : List Char) : Option F32Val :=
  let sgn : Bool × List Char :=
    match cs with
    | '+' :: r => (false, r)
    | '-' :: r => (true, r)
    | r => (false, r)
  let neg := sgn.1
  let body := sgn.2
  if lowerAscii body = "inf".data ∨ lowerAscii body = "infinity".data then
    some (.inf neg)
  else if lowerAscii body = "nan".data then
    some .nan
  else
    let ip := body.takeWhile Char.isDigit
    let r1 := body.dropWhile Char.isDigit
    let fr : List Char × List Char :=
      match r1 with
      | '.' :: r => (r.takeWhile Char.isDigit, r.dropWhile Char.isDigit)
      | _ => ([], r1)
    let fp := fr.1
    let r2 := fr.2
    if ip = [] ∧ fp = [] then none
    else
      match r2 with
      | [] => some (decValue neg ip fp 0)
      | e :: r3 =>
        if e = 'e' ∨ e = 'E' then
          let esgn : Bool × List Char :=
            match r3 with
            | '+' :: r => (false, r)
            | '-' :: r => (true, r)
            | r => (false, r)
          let ed := esgn.2.takeWhile Char.isDigit
          let r5 := esgn.2.dropWhile Char.isDigit
          if ed = [] ∨ r5 ≠ [] then none
          else
            let ex : Int := if esgn.1 then -(digitsToNat ed : Int) else (digitsToNat ed : Int)
            some (decValue neg ip fp ex)
        else none

/-! ## `CachedCompression::get_valid` (src/src/lib.rs lines 68-85) -/

/-- `let val: f32 = val.trim().parse().unwrap_or(0.); val == 0.` -/
def zeroWeight (v : List Char) : Bool :=
  (((parseF32 (trimChars v)).getD (.num 0 1)).isZero)

/-- One iteration of the parameter loop: a part without `=` is skipped
by the `filter_map`; a `key=value` part causes the early `return None`
exactly when `val == 0. && p.trim() == "q"`. -/
def param_rejects (p : List Char) : Bool :=
  match splitOnce '=' p with
  | some kv => zeroWeight kv.2 && decide (trimChars kv.1 = "q".data)
  | none => false

/-- The `for (p, val) in parts...` loop of the closure: `true` means the
closure returned `None` for this coding item. -/
def paramsReject : List (List Char) → Bool
  | [] => false
  | p :: rest => if param_rejects p then true else paramsReject rest

/-- The `filter_map` closure of `get_valid` in src/src/lib.rs: split the
item on `;`, take the name, run the parameter loop, and yield the
trimmed name unless a `q=0` parameter rejected the item. -/
def coding_filter (coding : List Char) : Option (List Char) :=
  match splitSep ';' coding with
  | [] => none
  | name :: params => if paramsReject params then none else some (trimChars name)

/-- The comma-separated items of all `Accept-Encoding` header values
(`.get("Accept-Encoding").flat_map(|v| v.split(','))`). -/
def items (headers : List String) : List (List Char) :=
  (headers.map String.data).flatMap (splitSep ',')

/-- `CachedCompression::get_valid` from src/src/lib.rs: the first item
that survives the `q=0` filter and names a known algorithm. -/
def get_valid (headers : List String) : Option Algorithm :=
  (((items headers).filterMap coding_filter).filterMap Algorithm.from_name).head?

/-! ## `CachedCompression::get_valid` (src/src/main.rs lines 62-86) -/

/-- The `filter_map` closure of the `main.rs` variant: split once on
`;`; with no `;` the trimmed item is kept; with a `;` the parameter tail
is split once on `=` — no `=` drops the item, and a `key=value` keeps
the name unless `val == 0.` and the key trims to `q`. -/
def main_coding_filter (coding : List Char) : Option (List Char) :=
  match splitOnce ';' coding with
  | some np =>
    match splitOnce '=' np.2 with
    | some kv =>
      if !(zeroWeight kv.2) || decide (trimChars kv.1 ≠ "q".data) then
        some (trimChars np.1)
      else none
    | none => none
  | none => some (trimChars coding)

/-- `CachedCompression::get_valid` from src/src/main.rs. -/
def main_get_valid (headers : List String) : Option Algorithm :=
  (((items headers).filterMap main_coding_filter).filterMap Algorithm.from_name).head?

/-! ## Paths and `OsStr`

`PathBuf` keys the cache and addresses files.  The source only uses
`file_name` (which may be absent, e.g. for `/`), `to_str` (which fails
for non-UTF-8 names), `with_file_name` / `set_file_name`, and
`extension`, so a path is embedded as a parent prefix plus an optional
file-name component, with components as raw byte lists. -/

/-- An operating-system string: a raw byte sequence. -/
abbrev OsStr := List Nat

/-- UTF-8 decoding of a byte sequence, rejecting truncated, overlong,
surrogate and out-of-range sequences (the contract of `OsStr::to_str`). -/
def utf8Decode : List Nat → Option (List Char)
  | [] => some []
  | b :: rest =>
    if b < 0x80 then
      (utf8Decode rest).map (Char.ofNat b :: ·)
    else if b < 0xC2 then none
    else if b < 0xE0 then
      match rest with
      | b1 :: r =>
        if 0x80 ≤ b1 ∧ b1 < 0xC0 then
          (utf8Decode r).map (Char.ofNat ((b - 0xC0) * 64 + (b1 - 0x80)) :: ·)
        else none
      | _ => none
    else if b < 0xF0 then
      match rest with
      | b1 :: b2 :: r =>
        let cp := (b - 0xE0) * 4096 + (b1 - 0x80) * 64 + (b2 - 0x80)
        if (0x80 ≤ b1 ∧ b1 < 0xC0) ∧ (0x80 ≤ b2 ∧ b2 < 0xC0) ∧
            0x800 ≤ cp ∧ ¬(0xD800 ≤ cp ∧ cp ≤ 0xDFFF) then
          (utf8Decode r).map (Char.ofNat cp :: ·)
        else none
      | _ => none
    else if b < 0xF5 then
      match rest with
      | b1 :: b2 :: b3 :: r =>
        let cp := (b - 0xF0) * 262144 + (b1 - 0x80) * 4096 + (b2 - 0x80) * 64 + (b3 - 0x80)
        if (0x80 ≤ b1 ∧ b1 < 0xC0) ∧ (0x80 ≤ b2 ∧ b2 < 0xC0) ∧ (0x80 ≤ b3 ∧ b3 < 0xC0) ∧
            0x10000 ≤ cp ∧ cp ≤ 0x10FFFF then
          (utf8Decode r).map (Char.ofNat cp :: ·)
        else none
      | _ => none
    else none

/-- `OsStr::to_str`: succeeds exactly on valid UTF-8. -/
def to_str (s : OsStr) : Option String :=
  (utf8Decode s).map List.asString

/-- UTF-8 encoding of one scalar value. -/
def utf8EncodeChar (c : Char) : List Nat :=
  let n := c.toNat
  if n < 0x80 then [n]
  else if n < 0x800 then [0xC0 + n / 64, 0x80 + n % 64]
  else if n < 0x10000 then [0xE0 + n / 4096, 0x80 + (n / 64) % 64, 0x80 + n % 64]
  else [0xF0 + n / 262144, 0x80 + (n / 4096) % 64, 0x80 + (n / 64) % 64, 0x80 + n % 64]

/-- UTF-8 encoding of a string (how a Rust `String` is placed into a
path component by `set_file_name` / `with_file_name`). -/
def utf8Encode (s : String) : List Nat :=
  (s.data.map utf8EncodeChar).flatten

/-- A filesystem path: parent components plus an optional final
file-name component (`Path::file_name` is `none` for e.g. `/`). -/
structure RPath where
  parent : List OsStr
  file_name : Option OsStr
deriving DecidableEq

/-- `Path::with_file_name` / `PathBuf::set_file_name` with a Rust
`String` argument: replace (or install) the final component. -/
def RPath.with_file_name (p : RPath) (s : String) : RPath :=
  { parent := p.parent, file_name := some (utf8Encode s) }

/-- `Path::extension`: the bytes after the last `.` of the file name,
provided that dot is not its first byte; `none` otherwise. -/
def RPath.extension (p : RPath) : Option OsStr :=
  p.file_name.bind fun nb =>
    match splitOnce 0x2E nb.reverse with
    | none => none
    | some pr => if pr.2 = [] then none else some pr.1.reverse

/-- Model of the external `rocket::http::ContentType::from_extension`
lookup, restricted to a few common extensions (the repository's claims
depend only on which path the extension is read from, not on the
table's contents).  Rocket compares extensions ASCII-case-insensitively. -/
def from_extension (ext : String) : Option String :=
  match (ext.data.map Char.toLower).asString with
  | "txt" => some "text/plain; charset=utf-8"
  | "html" => some "text/html; charset=utf-8"
  | "css" => some "text/css; charset=utf-8"
  | "js" => some "text/javascript"
  | "gz" => some "application/gzip"
  | _ => none

/-- `content_type_from_path` (src/src/lib.rs lines 181-183):
`ContentType::from_extension(path.as_ref().extension()?.to_str()?)`. -/
def content_type_from_path (p : RPath) : Option String :=
  (p.extension.bind to_str).bind from_extension

/-! ## The compression cache (`DashMap<PathBuf, Info>`)

`Info` is the per-path record (src/src/lib.rs lines 44-47).  The map is
embedded as an association list; each of the three map transactions the
source performs under a single `entry` / `get` lock becomes one atomic
operation on this state:

* `try_begin` — the first `entry(path).or_insert(..)` block of
  `dispatch` (lines 90-100): create the record if absent, return `false`
  if the algorithm is already pending, else push it onto `pending` and
  return `true`;
* `finish` — the final block of `dispatch` (lines 114-124): create the
  record if absent, drop the algorithm from `pending` with `retain`, and
  push it onto `compressions` on success;
* `is_ready` — the read in `rewrite` (lines 194-197):
  `map.get(path).is_some_and(|info| info.compressions.contains(&algo))`. -/

/-- Per-path compression state (`struct Info`). -/
structure Info where
  compressions : List Algorithm
  pending : List Algorithm
deriving DecidableEq

/-- The record inserted by `or_insert` (`compressions: vec![], pending: vec![]`). -/
def Info.empty : Info := ⟨[], []⟩

/-- The shared map, as an association list with at most one live entry
per path (lookups and updates touch the first matching entry). -/
abbrev Cache := List (RPath × Info)

/-- `map.get(path)`. -/
def Cache.get? : Cache → RPath → Option Info
  | [], _ => none
  | (q, i) :: rest, p => if q = p then some i else Cache.get? rest p

/-- The record for `p`, defaulting to the empty record when absent. -/
def Cache.infoOf (c : Cache) (p : RPath) : Info :=
  (c.get? p).getD Info.empty

/-- First `dispatch` transaction: `or_insert` then the `pending` check
and push.  Returns whether the caller acquired the job. -/
def try_begin : Cache → RPath → Algorithm → Bool × Cache
  | [], p, a => (true, [(p, { compressions := [], pending := [a] })])
  | (q, i) :: rest, p, a =>
    if q = p then
      if a ∈ i.pending then (false, (q, i) :: rest)
      else (true, (q, { i with pending := i.pending ++ [a] }) :: rest)
    else
      let r := try_begin rest p a
      (r.1, (q, i) :: r.2)

/-- Final `dispatch` transaction: `or_insert`, `pending.retain(|x| *x != algo)`,
and `compressions.push(algo)` on success. -/
def finish : Cache → RPath → Algorithm → Bool → Cache
  | [], p, a, success => [(p, { compressions := if success then [a] else [], pending := [] })]
  | (q, i) :: rest, p, a, success =>
    if q = p then
      (q, { compressions := if success then i.compressions ++ [a] else i.compressions,
            pending := i.pending.filter (fun b => decide (b ≠ a)) }) :: rest
    else (q, i) :: finish rest p a success

/-- The cache read of `rewrite`:
`map.get(path).is_some_and(|info| info.compressions.contains(&algo))`. -/
def is_ready (c : Cache) (p : RPath) (a : Algorithm) : Bool :=
  match c.get? p with
  | some i => decide (a ∈ i.compressions)
  | none => false

/-- Record update performed by a successful `try_begin` (and the
identity when the algorithm was already pending). -/
def Info.begin (i : Info) (a : Algorithm) : Info :=
  if a ∈ i.pending then i else { i with pending := i.pending ++ [a] }

/-- Record update performed by `finish`. -/
def Info.finishUpd (i : Info) (a : Algorithm) (success : Bool) : Info :=
  { compressions := if success then i.compressions ++ [a] else i.compressions,
    pending := i.pending.filter (fun b => decide (b ≠ a)) }

/-- One atomic transaction on the shared map, as performed by the
source's tasks in any interleaving. -/
inductive Step : Cache → Cache → Prop
  | tb (c : Cache) (p : RPath) (a : Algorithm) : Step c (try_begin c p a).2
  | fin (c : Cache) (p : RPath) (a : Algorithm) (s : Bool) : Step c (finish c p a s)

/-- Cache states reachable from the initial empty map. -/
inductive Reachable : Cache → Prop
  | init : Reachable []
  | step {c c2 : Cache} : Reachable c → Step c c2 → Reachable (c2)

/-- Cache states reachable when `try_begin` is only ever issued for a
pair that is not already completed (the discipline the spec's
disjointness invariant presumes). -/
inductive ReachableG : Cache → Prop
  | init : ReachableG []
  | tb {c : Cache} (p : RPath) (a : Algorithm) :
      ReachableG c → is_ready c p a = false → ReachableG (try_begin c p a).2
  | fin {c : Cache} (p : RPath) (a : Algorithm) (s : Bool) :
      ReachableG c → ReachableG (finish c p a s)

/-! ## `CachedCompression::compress` (src/src/lib.rs lines 128-177)

The streaming encoder.  File contents and the flate2 compressor are
external, so the model takes the sequence of chunk sizes produced by the
successive `read` calls and an oracle listing the outcome of each
`compressor.compress` call (its status and how much input it consumed;
the amount of output only feeds `write_all`, which does not affect
control flow).  The two inner loops can run unboundedly for a
pathological compressor, so the model carries fuel; exhausted fuel
(`fuelOut`) corresponds to a run of the source that has not terminated. -/

/-- Status of one `compressor.compress` call (`flate2::Status` plus the
`Err` arm). -/
inductive CStatus
  | ok
  | bufError
  | streamEnd
  | errored
deriving DecidableEq

/-- One oracle entry: the status returned by a `compress` call and the
input it consumed (`total_in` delta). -/
structure CompStep where
  status : CStatus
  consumed : Nat
deriving DecidableEq

/-- Outcome of a `compress` run.  `panicked` is the `todo!` hit when
`Status::StreamEnd` arrives outside the finalization loop. -/
inductive CompressResult
  | success
  | ioError
  | panicked
  | fuelOut
deriving DecidableEq

/-- The finalization loop (`FlushCompress::Finish` until `StreamEnd`). -/
def finishLoop : Nat → List CompStep → CompressResult
  | 0, _ => .fuelOut
  | _ + 1, [] => .fuelOut
  | fuel + 1, step :: rest =>
    match step.status with
    | .ok => finishLoop fuel rest
    | .bufError => .ioError
    | .streamEnd => .success
    | .errored => .ioError

/-- The `while rem.len() > 0` loop feeding one input chunk
(`FlushCompress::None`): `Ok`, `BufError` and `Err` map to continue /
`io::Error` as in the source, and `StreamEnd` hits the
`todo!("This should never happen when compressing")`. -/
def chunkLoop : Nat → Nat → List CompStep → Except CompressResult (List CompStep)
  | _, 0, oracle => .ok oracle
  | 0, _ + 1, _ => .error .fuelOut
  | _ + 1, _ + 1, [] => .error .fuelOut
  | fuel + 1, rem + 1, step :: rest =>
    match step.status with
    | .ok => chunkLoop fuel (rem + 1 - step.consumed) rest
    | .bufError => .error .ioError
    | .streamEnd => .error .panicked
    | .errored => .error .ioError

/-- `CachedCompression::compress`: feed each read chunk through
`chunkLoop`; a read of size `0` (end of file, and the end of the
modelled read list) enters the finalization loop. -/
def compress (fuel : Nat) (input : List Nat) (oracle : List CompStep) : CompressResult :=
  match input with
  | [] => finishLoop fuel oracle
  | size :: sizes =>
    if size = 0 then finishLoop fuel oracle
    else
      match chunkLoop fuel size oracle with
      | .error r => r
      | .ok oracle2 =>
        match fuel with
        | 0 => .fuelOut
        | f + 1 => compress f sizes oracle2

/-! ## `CachedCompression::dispatch` (src/src/lib.rs lines 87-126)

The spawned task, sequentialized: the `try_begin` transaction, then the
`path.file_name().unwrap().to_str().unwrap()` pair (which panics when
the path has no file name or a non-UTF-8 one, before any compression and
before any `finish`), then the compression run, then the `finish`
transaction with the success flag. -/

/-- How the spawned task ends.  `panicked` and `hung` runs never reach
the `finish` transaction. -/
inductive TaskResult
  | earlyReturn
  | panicked
  | hung
  | completed (success : Bool)
deriving DecidableEq

/-- The body of the task spawned by `dispatch`, returning its outcome
and the cache it leaves behind. -/
def dispatch (c : Cache) (p : RPath) (a : Algorithm) (fuel : Nat) (input : List Nat)
    (oracle : List CompStep) : TaskResult × Cache :=
  let r := try_begin c p a
  if r.1 = false then (.earlyReturn, r.2)
  else
    match p.file_name.bind to_str with
    | none => (.panicked, r.2)
    | some _ =>
      match compress fuel input oracle with
      | .success => (.completed true, finish r.2 p a true)
      | .ioError => (.completed false, finish r.2 p a false)
      | .panicked => (.panicked, r.2)
      | .fuelOut => (.hung, r.2)

/-! ## The `Rewriter` implementation (src/src/lib.rs lines 185-221) -/

/-- A candidate regular-file response: addressed path plus response
headers (`rocket::fs::rewrite::File`). -/
structure FileResp where
  path : RPath
  headers : List (String × String)
deriving DecidableEq

/-- `rocket::fs::rewrite::Rewrite`: a regular file or some other
response kind (directory), which the hook passes through. -/
inductive Rewrite
  | file (f : FileResp)
  | directory (p : RPath)
deriving DecidableEq

/-- `<CachedCompression as Rewriter>::rewrite`.  Returns the rewritten
response together with the list of fire-and-forget `dispatch` calls it
issued (empty or a singleton). -/
def rewrite (c : Cache) (accept : List String) (resp : Option Rewrite) :
    Option Rewrite × List (Algorithm × RPath) :=
  match resp with
  | some (.file f) =>
    match get_valid accept with
    | some algo =>
      if is_ready c f.path algo then
        let headers1 :=
          match content_type_from_path f.path with
          | some ct => f.headers ++ [("Content-Type", ct)]
          | none => f.headers
        let headers2 := headers1 ++ [("Content-Encoding", algo.name)]
        let new_name := ((f.path.file_name.bind to_str).getD "") ++ "." ++ algo.name
        (some (.file { path := f.path.with_file_name new_name, headers := headers2 }), [])
      else
        (some (.file f), [(algo, f.path)])
    | none => (some (.file f), [])
  | other => (other, [])

/-! ## Concrete states used by counterexamples and witnesses -/

/-- An ordinary asset path with a UTF-8 file name, `index.txt`. -/
def pEx : RPath := { parent := [], file_name := some (utf8Encode "index.txt") }

/-- A path with no file name at all (such as `/`). -/
def pBad : RPath := { parent := [], file_name := none }

/-- A path whose file name is not valid UTF-8. -/
def pNon : RPath := { parent := [], file_name := some [0xFF] }

/-- Cache after `try_begin` acquires the gzip job for `pEx`. -/
def cA : Cache := (try_begin [] pEx .Gzip).2

/-- Cache after that job finishes successfully. -/
def cB : Cache := finish cA pEx .Gzip true

/-- Cache after a second `try_begin` re-acquires the already-completed
pair (the completed artifact does not block `try_begin`). -/
def cC : Cache := (try_begin cB pEx .Gzip).2

/-- Cache after the re-acquired job fails. -/
def cD : Cache := finish cC pEx .Gzip false

/-! ## Basic lemmas about the embedded operations -/

theorem head?_filterMap {α β : Type} (f : α → Option β) (l : List α) :
    (l.filterMap f).head? = l.findSome? f := by
  induction l with
  | nil => rfl
  | cons a l ih =>
    cases h : f a <;> simp [List.filterMap_cons, List.findSome?_cons, h, ih]

theorem splitSep_ne_nil (sep : Char) (cs : List Char) : splitSep sep cs ≠ [] := by
  cases cs with
  | nil => simp [splitSep]
  | cons c cs =>
    simp only [splitSep]
    split
    · simp
    · split <;> simp

theorem get?_try_begin (c : Cache) (p : RPath) (a : Algorithm) (q : RPath) :
    (try_begin c p a).2.get? q =
      if q = p then some ((c.infoOf p).begin a) else c.get? q := by
  induction c with
  | nil =>
    by_cases h : q = p
    · subst h
      simp [try_begin, Cache.get?, Cache.infoOf, Info.begin, Info.empty]
    · simp only [try_begin, Cache.get?]
      rw [if_neg (fun hh => h hh.symm), if_neg h]
  | cons e rest ih =>
    obtain ⟨k, i⟩ := e
    by_cases hk : k = p
    · subst hk
      by_cases hm : a ∈ i.pending <;> by_cases hq : q = k <;>
        simp [try_begin, Cache.get?, Cache.infoOf, Info.begin, hm, hq, eq_comm]
    · by_cases hq : k = q
      · subst hq
        simp [try_begin, Cache.get?, Cache.infoOf, hk, Ne.symm hk]
      · simp [try_begin, Cache.get?, Cache.infoOf, hk, hq, ih]

theorem fst_try_begin (c : Cache) (p : RPath) (a : Algorithm) :
    (try_begin c p a).1 = decide (a ∉ (c.infoOf p).pending) := by
  induction c with
  | nil => simp [try_begin, Cache.infoOf, Cache.get?, Info.empty]
  | cons e rest ih =>
    obtain ⟨k, i⟩ := e
    by_cases hk : k = p
    · subst hk
      by_cases hm : a ∈ i.pending <;>
        simp [try_begin, Cache.infoOf, Cache.get?, hm]
    · simp [try_begin, Cache.infoOf, Cache.get?, hk, ih]

theorem get?_finish (c : Cache) (p : RPath) (a : Algorithm) (s : Bool) (q : RPath) :
    (finish c p a s).get? q =
      if q = p then some ((c.infoOf p).finishUpd a s) else c.get? q := by
  induction c with
  | nil =>
    by_cases h : q = p
    · subst h
      cases s <;>
        simp [finish, Cache.get?, Cache.infoOf, Info.finishUpd, Info.empty]
    · simp only [finish, Cache.get?]
      rw [if_neg (fun hh => h hh.symm), if_neg h]
  | cons e rest ih =>
    obtain ⟨k, i⟩ := e
    by_cases hk : k = p
    · subst hk
      by_cases hq : q = k <;>
        simp [finish, Cache.get?, Cache.infoOf, Info.finishUpd, hq, eq_comm]
    · by_cases hq : k = q
      · subst hq
        simp [finish, Cache.get?, Cache.infoOf, hk, Ne.symm hk]
      · simp [finish, Cache.get?, Cache.infoOf, hk, hq, ih]

theorem infoOf_try_begin (c : Cache) (p : RPath) (a : Algorithm) (q : RPath) :
    (try_begin c p a).2.infoOf q =
      if q = p then (c.infoOf p).begin a else c.infoOf q := by
  unfold Cache.infoOf
  rw [get?_try_begin]
  by_cases h : q = p <;> simp [h, Cache.infoOf]

theorem infoOf_finish (c : Cache) (p : RPath) (a : Algorithm) (s : Bool) (q : RPath) :
    (finish c p a s).infoOf q =
      if q = p then (c.infoOf p).finishUpd a s else c.infoOf q := by
  unfold Cache.infoOf
  rw [get?_finish]
  by_cases h : q = p <;> simp [h, Cache.infoOf]

theorem is_ready_eq (c : Cache) (p : RPath) (a : Algorithm) :
    is_ready c p a = decide (a ∈ (c.infoOf p).compressions) := by
  unfold is_ready Cache.infoOf
  cases c.get? p <;> simp [Info.empty]

theorem is_ready_iff (c : Cache) (p : RPath) (a : Algorithm) :
    is_ready c p a = true ↔ a ∈ (c.infoOf p).compressions := by
  rw [is_ready_eq]
  simp

theorem begin_compressions (i : Info) (a : Algorithm) :
    (i.begin a).compressions = i.compressions := by
  unfold Info.begin
  split <;> rfl

theorem begin_pending_mem {i : Info} {a b : Algorithm}
    (h : b ∈ (i.begin a).pending) : b ∈ i.pending ∨ b = a := by
  unfold Info.begin at h
  split at h
  · exact .inl h
  · rcases List.mem_append.mp h with h2 | h2
    · exact .inl h2
    · exact .inr (List.mem_singleton.mp h2)

theorem finishUpd_pending_mem {i : Info} {a b : Algorithm} {s : Bool}
    (h : b ∈ (i.finishUpd a s).pending) : b ∈ i.pending ∧ b ≠ a := by
  unfold Info.finishUpd at h
  simp only [List.mem_filter, decide_eq_true_eq] at h
  exact h

theorem finishUpd_compressions_mem {i : Info} {a b : Algorithm} {s : Bool}
    (h : b ∈ (i.finishUpd a s).compressions) : b ∈ i.compressions ∨ b = a := by
  unfold Info.finishUpd at h
  cases s <;> simp_all

theorem param_rejects_iff (p : List Char) :
    param_rejects p = true ↔
      ∃ k v2, splitOnce '=' p = some (k, v2) ∧
        trimChars k = "q".data ∧ zeroWeight v2 = true := by
  unfold param_rejects
  cases h : splitOnce '=' p with
  | none => simp
  | some kv =>
    obtain ⟨k, v2⟩ := kv
    simp only [Bool.and_eq_true, decide_eq_true_eq]
    constructor
    · rintro ⟨hz, hk⟩
      exact ⟨k, v2, rfl, hk, hz⟩
    · rintro ⟨k2, v3, he, hk, hz⟩
      obtain ⟨rfl, rfl⟩ : k = k2 ∧ v2 = v3 := by
        have := he
        simp only [Option.some.injEq, Prod.mk.injEq] at this
        exact this
      exact ⟨hz, hk⟩

theorem paramsReject_iff (ps : List (List Char)) :
    paramsReject ps = true ↔ ∃ p ∈ ps, param_rejects p = true := by
  induction ps with
  | nil => simp [paramsReject]
  | cons p rest ih =>
    by_cases h : param_rejects p <;> simp [paramsReject, h, ih]

theorem coding_filter_eq_none_iff (item : List Char) :
    coding_filter item = none ↔
      ∃ p ∈ (splitSep ';' item).tail, param_rejects p = true := by
  unfold coding_filter
  cases hs : splitSep ';' item with
  | nil => exact absurd hs (splitSep_ne_nil ';' item)
  | cons name params =>
    by_cases h : paramsReject params
    · simp only [h, if_true, true_iff]
      exact (paramsReject_iff params).mp h
    · simp only [h, if_false, List.tail_cons]
      constructor
      · intro hx
        exact absurd hx (by simp)
      · intro hx
        exact absurd ((paramsReject_iff params).mpr hx) h

/-! ## Claim theorems -/

/-- C3: for every comma-separated item of an `Accept-Encoding` header,
the lib.rs parser closure drops the item exactly when some `;`-delimited
`key=value` parameter has key trimming to `q` and value parsing (as an
`f32`, failures defaulting to `0`) equal to `0` — regardless of the
item's other parameters; a parse failure counts as `0` and rejects; a
nonzero `q` (such as `0.5`) does not by itself reject the item. -/
theorem c3_q_zero_rejects (v : List Char) (item : List Char)
    (hmem : item ∈ splitSep ',' v) :
    (coding_filter item = none ↔
      ∃ p ∈ (splitSep ';' item).tail, ∃ k v2, splitOnce '=' p = some (k, v2) ∧
        trimChars k = "q".data ∧ zeroWeight v2 = true) ∧
    (∀ v2, parseF32 (trimChars v2) = none → zeroWeight v2 = true) ∧
    coding_filter ("gzip;q=0".data) = none ∧
    coding_filter ("gzip; q = nope".data) = none ∧
    coding_filter ("gzip;a=1;q=0".data) = none ∧
    coding_filter ("gzip;q=0.5".data) = some ("gzip".data) := by
  refine ⟨?_, ?_, by decide, by decide, by decide, by decide⟩
  · rw [coding_filter_eq_none_iff]
    constructor
    · rintro ⟨p, hp, hr⟩
      exact ⟨p, hp, (param_rejects_iff p).mp hr⟩
    · rintro ⟨p, hp, hr⟩
      exact ⟨p, hp, (param_rejects_iff p).mpr hr⟩
  · intro v2 h
    simp [zeroWeight, h, F32Val.isZero]

/-- Closed instance of `c3_q_zero_rejects` at the header `gzip;q=0`,
whose single item is the header itself. -/
theorem c3_q_zero_rejects_witness :
    (coding_filter ("gzip;q=0".data) = none ↔
      ∃ p ∈ (splitSep ';' ("gzip;q=0".data)).tail, ∃ k v2, splitOnce '=' p = some (k, v2) ∧
        trimChars k = "q".data ∧ zeroWeight v2 = true) ∧
    (∀ v2, parseF32 (trimChars v2) = none → zeroWeight v2 = true) ∧
    coding_filter ("gzip;q=0".data) = none ∧
    coding_filter ("gzip; q = nope".data) = none ∧
    coding_filter ("gzip;a=1;q=0".data) = none ∧
    coding_filter ("gzip;q=0.5".data) = some ("gzip".data) :=
  c3_q_zero_rejects ("gzip;q=0".data) ("gzip;q=0".data) (by decide)

/-- C4: the lib.rs parser returns the leftmost comma-separated item that
both survives the `q=0` filter and names a known algorithm by exact,
case-sensitive token comparison; unknown tokens are skipped without
ending the scan, and an absent header (no values) or no surviving known
item yields `none`. -/
theorem c4_leftmost_accepted_known (headers : List String) :
    get_valid headers =
      (items headers).findSome? (fun c2 => (coding_filter c2).bind Algorithm.from_name) ∧
    get_valid [] = none ∧
    (∀ c2 rest, (coding_filter c2).bind Algorithm.from_name = none →
      ((c2 :: rest).findSome? (fun c3 => (coding_filter c3).bind Algorithm.from_name)) =
        rest.findSome? (fun c3 => (coding_filter c3).bind Algorithm.from_name)) ∧
    (∀ c2 rest a, (coding_filter c2).bind Algorithm.from_name = some a →
      ((c2 :: rest).findSome? (fun c3 => (coding_filter c3).bind Algorithm.from_name)) =
        some a) ∧
    ((∀ it ∈ items headers, (coding_filter it).bind Algorithm.from_name = none) →
      get_valid headers = none) ∧
    Algorithm.from_name ("GZIP".data) = none ∧
    Algorithm.from_name ("gzip".data) = some .Gzip ∧
    get_valid ["flate,gzip"] = some .Gzip := by
  have key : ∀ hs : List String, get_valid hs =
      (items hs).findSome? (fun c2 => (coding_filter c2).bind Algorithm.from_name) := by
    intro hs
    unfold get_valid
    rw [List.filterMap_filterMap, head?_filterMap]
  refine ⟨key headers, by decide, ?_, ?_, ?_, by decide, by decide, by decide⟩
  · intro c2 rest h
    simp [List.findSome?_cons, h]
  · intro c2 rest a h
    simp [List.findSome?_cons, h]
  · intro hall
    rw [key headers]
    exact List.findSome?_eq_none_iff.mpr hall

/-- Closed instance of `c4_leftmost_accepted_known` at the header list
`["flate,gzip"]`. -/
theorem c4_leftmost_accepted_known_witness :
    get_valid ["flate,gzip"] =
      (items ["flate,gzip"]).findSome?
        (fun c2 => (coding_filter c2).bind Algorithm.from_name) ∧
    get_valid ["flate,gzip"] = some .Gzip :=
  ⟨(c4_leftmost_accepted_known ["flate,gzip"]).1,
   (c4_leftmost_accepted_known ["flate,gzip"]).2.2.2.2.2.2.2⟩

/-- C9: the negotiation parsers of src/src/lib.rs and src/src/main.rs
compute different functions.  `gzip;x` (a `;` parameter without `=`) is
kept by lib.rs but dropped by main.rs, and `gzip;a=1;q=0` is dropped by
lib.rs (its second parameter is a zero `q`) but kept by main.rs (which
inspects only the text up to the first `=`). -/
theorem c9_parser_variants_differ :
    (∃ v : String, get_valid [v] ≠ main_get_valid [v]) ∧
    get_valid ["gzip;x"] = some Algorithm.Gzip ∧
    main_get_valid ["gzip;x"] = none ∧
    get_valid ["gzip;a=1;q=0"] = none ∧
    main_get_valid ["gzip;a=1;q=0"] = some Algorithm.Gzip :=
  ⟨⟨"gzip;x", by decide⟩, by decide, by decide, by decide, by decide⟩

/-- C1 (counterexample): the claimed disjointness of `compressions` and
`pending` fails on a reachable state.  After a successful job completes
a pair, `try_begin` (which inspects only `pending`) re-acquires it, and
the algorithm is then in both collections of the same record at once. -/
theorem c1_counterexample :
    Reachable cC ∧
    Algorithm.Gzip ∈ (cC.infoOf pEx).compressions ∧
    Algorithm.Gzip ∈ (cC.infoOf pEx).pending :=
  ⟨.step (.step (.step .init (.tb [] pEx .Gzip)) (.fin cA pEx .Gzip true))
     (.tb cB pEx .Gzip),
   by decide, by decide⟩

/-- C1 (amended): in every state reachable while `try_begin` is only
issued for pairs that are not already completed, no algorithm is in both
the `compressions` and the `pending` collection of the same record. -/
theorem c1_disjoint_when_guarded (c : Cache) (hc : ReachableG c)
    (p : RPath) (a : Algorithm) :
    ¬(a ∈ (c.infoOf p).compressions ∧ a ∈ (c.infoOf p).pending) := by
  induction hc with
  | init => simp [Cache.infoOf, Cache.get?, Info.empty]
  | tb p2 a2 hr hnr ih =>
    rintro ⟨hcomp, hpend⟩
    rw [infoOf_try_begin] at hcomp hpend
    by_cases hq : p = p2
    · subst hq
      rw [if_pos rfl] at hcomp hpend
      rw [begin_compressions] at hcomp
      rcases begin_pending_mem hpend with h2 | h2
      · exact ih ⟨hcomp, h2⟩
      · subst h2
        rw [is_ready_eq] at hnr
        simp only [decide_eq_false_iff_not] at hnr
        exact hnr hcomp
    · rw [if_neg hq] at hcomp hpend
      exact ih ⟨hcomp, hpend⟩
  | fin p2 a2 s hr ih =>
    rintro ⟨hcomp, hpend⟩
    rw [infoOf_finish] at hcomp hpend
    by_cases hq : p = p2
    · subst hq
      rw [if_pos rfl] at hcomp hpend
      obtain ⟨hmem, hne⟩ := finishUpd_pending_mem hpend
      rcases finishUpd_compressions_mem hcomp with h2 | h2
      · exact ih ⟨h2, hmem⟩
      · exact hne h2
    · rw [if_neg hq] at hcomp hpend
      exact ih ⟨hcomp, hpend⟩

/-- Closed instance of `c1_disjoint_when_guarded` after one guarded
`try_begin` from the empty cache. -/
theorem c1_disjoint_when_guarded_witness :
    ¬(Algorithm.Gzip ∈ (cA.infoOf pEx).compressions ∧
      Algorithm.Gzip ∈ (cA.infoOf pEx).pending) :=
  c1_disjoint_when_guarded cA (.tb pEx .Gzip .init (by decide)) pEx .Gzip

/-- C7: after `finish(path, algo, true)` the pair reads as ready, and
readiness is preserved by every further cache transaction — no
operation ever removes an algorithm from a record's `compressions`. -/
theorem c7_ready_persists (c : Cache) (p : RPath) (a : Algorithm) :
    is_ready (finish c p a true) p a = true ∧
    (∀ c1 c2, Step c1 c2 → is_ready c1 p a = true → is_ready c2 p a = true) := by
  constructor
  · rw [is_ready_iff, infoOf_finish, if_pos rfl]
    simp [Info.finishUpd]
  · rintro c1 c2 st h
    rw [is_ready_iff] at h ⊢
    cases st with
    | tb p2 a2 =>
      rw [infoOf_try_begin]
      by_cases hq : p = p2
      · rw [if_pos hq, begin_compressions, ← hq]
        exact h
      · rw [if_neg hq]
        exact h
    | fin p2 a2 s =>
      rw [infoOf_finish]
      by_cases hq : p = p2
      · rw [if_pos hq]
        unfold Info.finishUpd
        cases s <;> simp [← hq, h]
      · rw [if_neg hq]
        exact h

/-- Closed instance of `c7_ready_persists`: readiness after a successful
finish, and its preservation across a later failing finish of the same
pair. -/
theorem c7_ready_persists_witness :
    is_ready (finish [] pEx .Gzip true) pEx .Gzip = true ∧
    is_ready (finish (finish [] pEx .Gzip true) pEx .Gzip false) pEx .Gzip = true :=
  ⟨(c7_ready_persists [] pEx .Gzip).1,
   (c7_ready_persists [] pEx .Gzip).2 _ _
     (Step.fin (finish [] pEx .Gzip true) pEx .Gzip false)
     ((c7_ready_persists [] pEx .Gzip).1)⟩

/-- C8 (counterexample): `finish(path, algo, false)` does not always
leave `is_ready` false.  In the reachable state where the pair completed
once and was then re-acquired, the failing finish leaves the earlier
completion in place, so `is_ready` is `true` (though `try_begin` does
succeed again). -/
theorem c8_counterexample :
    Reachable cD ∧
    is_ready cD pEx .Gzip = true ∧
    (try_begin cD pEx .Gzip).1 = true :=
  ⟨.step (.step (.step (.step .init (.tb [] pEx .Gzip)) (.fin cA pEx .Gzip true))
      (.tb cB pEx .Gzip)) (.fin cC pEx .Gzip false),
   by decide, by decide⟩

/-- C8 (amended): `finish(path, algo, false)` removes the algorithm from
`pending` and adds nothing to `compressions`; consequently `is_ready`
stays `false` whenever the pair was not already completed, and a
subsequent `try_begin` for the pair always succeeds. -/
theorem c8_finish_false_clean (c : Cache) (p : RPath) (a : Algorithm) :
    ((finish c p a false).infoOf p).pending =
      ((c.infoOf p).pending).filter (fun b => decide (b ≠ a)) ∧
    a ∉ ((finish c p a false).infoOf p).pending ∧
    ((finish c p a false).infoOf p).compressions = (c.infoOf p).compressions ∧
    (is_ready c p a = false → is_ready (finish c p a false) p a = false) ∧
    (try_begin (finish c p a false) p a).1 = true := by
  have hpend : ((finish c p a false).infoOf p).pending =
      ((c.infoOf p).pending).filter (fun b => decide (b ≠ a)) := by
    rw [infoOf_finish, if_pos rfl]
    rfl
  have hnot : a ∉ ((finish c p a false).infoOf p).pending := by
    rw [hpend]
    simp
  have hcomp : ((finish c p a false).infoOf p).compressions = (c.infoOf p).compressions := by
    rw [infoOf_finish, if_pos rfl]
    rfl
  refine ⟨hpend, hnot, hcomp, ?_, ?_⟩
  · intro h
    rw [is_ready_eq] at h ⊢
    rw [hcomp]
    exact h
  · rw [fst_try_begin]
    simpa using hnot

/-- Closed instance of `c8_finish_false_clean` at the state with one
pending gzip job for `pEx`. -/
theorem c8_finish_false_clean_witness :
    ((finish cA pEx .Gzip false).infoOf pEx).pending =
      ((cA.infoOf pEx).pending).filter (fun b => decide (b ≠ .Gzip)) ∧
    Algorithm.Gzip ∉ ((finish cA pEx .Gzip false).infoOf pEx).pending ∧
    ((finish cA pEx .Gzip false).infoOf pEx).compressions = (cA.infoOf pEx).compressions ∧
    is_ready (finish cA pEx .Gzip false) pEx .Gzip = false ∧
    (try_begin (finish cA pEx .Gzip false) pEx .Gzip).1 = true :=
  ⟨(c8_finish_false_clean cA pEx .Gzip).1,
   (c8_finish_false_clean cA pEx .Gzip).2.1,
   (c8_finish_false_clean cA pEx .Gzip).2.2.1,
   (c8_finish_false_clean cA pEx .Gzip).2.2.2.1 (by decide),
   (c8_finish_false_clean cA pEx .Gzip).2.2.2.2⟩

/-- C10: `try_begin` inspects only `pending`, so an already-completed
pair is re-acquired; a second successful `finish` pushes a second copy
onto the record's `compressions` vector (which therefore holds
duplicates), while `is_ready` — a `contains` test — is unaffected. -/
theorem c10_try_begin_ignores_completed (c : Cache) (p : RPath) (a : Algorithm)
    (hready : is_ready c p a = true) (hpend : a ∉ (c.infoOf p).pending) :
    (try_begin c p a).1 = true ∧
    ((finish (try_begin c p a).2 p a true).infoOf p).compressions =
      (c.infoOf p).compressions ++ [a] ∧
    2 ≤ ((finish (try_begin c p a).2 p a true).infoOf p).compressions.count a ∧
    is_ready (finish (try_begin c p a).2 p a true) p a = true := by
  have hcomp : ((finish (try_begin c p a).2 p a true).infoOf p).compressions =
      (c.infoOf p).compressions ++ [a] := by
    rw [infoOf_finish, if_pos rfl, infoOf_try_begin, if_pos rfl]
    simp [Info.finishUpd, begin_compressions]
  refine ⟨?_, hcomp, ?_, ?_⟩
  · rw [fst_try_begin]
    simpa using hpend
  · rw [hcomp, List.count_append]
    have h1 : 1 ≤ (c.infoOf p).compressions.count a :=
      List.one_le_count_iff.mpr ((is_ready_iff c p a).mp hready)
    have h2 : List.count a [a] = 1 := by simp
    omega
  · rw [is_ready_iff, hcomp]
    simp

/-- Closed instance of `c10_try_begin_ignores_completed` at a cache
where `pEx` is completed for gzip and idle. -/
theorem c10_try_begin_ignores_completed_witness :
    (try_begin cB pEx .Gzip).1 = true ∧
    ((finish (try_begin cB pEx .Gzip).2 pEx .Gzip true).infoOf pEx).compressions =
      (cB.infoOf pEx).compressions ++ [.Gzip] ∧
    2 ≤ ((finish (try_begin cB pEx .Gzip).2 pEx .Gzip true).infoOf pEx).compressions.count .Gzip ∧
    is_ready (finish (try_begin cB pEx .Gzip).2 pEx .Gzip true) pEx .Gzip = true :=
  c10_try_begin_ignores_completed cB pEx .Gzip (by decide) (by decide)

/-- C2 (counterexample): a dispatched task whose `try_begin` succeeded
can end without any `finish` call.  On a path with no file name (and
likewise on a non-UTF-8 file name) the `unwrap` pair panics after the
`pending` insertion, leaving the pair pending forever with neither
`finish(true)` nor `finish(false)` performed. -/
theorem c2_counterexample :
    (try_begin [] pBad .Gzip).1 = true ∧
    dispatch [] pBad .Gzip 1 [] [] = (.panicked, (try_begin [] pBad .Gzip).2) ∧
    ((dispatch [] pBad .Gzip 1 [] []).2.infoOf pBad).pending = [.Gzip] ∧
    ((dispatch [] pBad .Gzip 1 [] []).2.infoOf pBad).compressions = [] ∧
    dispatch [] pNon .Gzip 1 [] [] = (.panicked, (try_begin [] pNon .Gzip).2) :=
  ⟨by decide, by decide, by decide, by decide, by decide⟩

/-- C2 (amended): for a path whose file name exists and is valid UTF-8,
a dispatched task whose `try_begin` succeeded and whose compression run
terminates performs exactly one `finish` — with `true` exactly when the
`StreamingEncoder` succeeded, applied to the post-`try_begin` cache. -/
theorem c2_one_finish_per_begin (c : Cache) (p : RPath) (a : Algorithm) (fuel : Nat)
    (input : List Nat) (oracle : List CompStep) (ok : Bool)
    (hname : (p.file_name.bind to_str).isSome = true)
    (hres : compress fuel input oracle = (if ok then .success else .ioError))
    (hbeg : (try_begin c p a).1 = true) :
    dispatch c p a fuel input oracle =
      (.completed ok, finish (try_begin c p a).2 p a ok) := by
  obtain ⟨s, hs⟩ := Option.isSome_iff_exists.mp hname
  unfold dispatch
  simp only [hbeg, hs]
  cases ok with
  | true => simp [hres]
  | false => simp [hres]

/-- Closed instance of `c2_one_finish_per_begin`: a successful run on
`pEx` (empty input, compressor signalling end-of-stream at once). -/
theorem c2_one_finish_per_begin_witness :
    dispatch [] pEx .Gzip 1 [] [⟨.streamEnd, 0⟩] =
      (.completed true, finish (try_begin [] pEx .Gzip).2 pEx .Gzip true) :=
  c2_one_finish_per_begin [] pEx .Gzip 1 [] [⟨.streamEnd, 0⟩] true
    (by decide) (by decide) (by decide)

/-- C6: a `StreamEnd` status arriving while an input chunk is still
being fed (outside the finalization loop) hits the source's
`todo!("This should never happen when compressing")`: the attempt is
aborted — it can never be reported as a success — whereas the same
status inside the finalization loop is the normal successful ending. -/
theorem c6_streamend_outside_finalization (fuel sz k : Nat) (sizes : List Nat)
    (rest : List CompStep) (hf : 0 < fuel) (hs : 0 < sz) :
    compress fuel (sz :: sizes) (⟨.streamEnd, k⟩ :: rest) = .panicked ∧
    compress fuel (sz :: sizes) (⟨.streamEnd, k⟩ :: rest) ≠ .success ∧
    (∀ f2 r2 k2 rest2, 0 < f2 → 0 < r2 →
      chunkLoop f2 r2 (⟨.streamEnd, k2⟩ :: rest2) = .error .panicked) ∧
    finishLoop fuel (⟨.streamEnd, k⟩ :: rest) = .success := by
  have hchunk : ∀ f2 r2 k2 rest2, 0 < f2 → 0 < r2 →
      chunkLoop f2 r2 (⟨.streamEnd, k2⟩ :: rest2) = .error (.panicked) := by
    intro f2 r2 k2 rest2 hf2 hr2
    cases f2 with
    | zero => omega
    | succ f3 =>
      cases r2 with
      | zero => omega
      | succ r3 => rfl
  have hcomp : compress fuel (sz :: sizes) (⟨.streamEnd, k⟩ :: rest) = .panicked := by
    unfold compress
    rw [if_neg (by omega : ¬sz = 0), hchunk fuel sz k rest hf hs]
  have hfin : finishLoop fuel (⟨.streamEnd, k⟩ :: rest) = .success := by
    cases fuel with
    | zero => omega
    | succ f3 => rfl
  refine ⟨hcomp, ?_, hchunk, hfin⟩
  rw [hcomp]
  simp

/-- Closed instance of `c6_streamend_outside_finalization` with one
pending byte and fuel 1. -/
theorem c6_streamend_outside_finalization_witness :
    compress 1 [1] [⟨.streamEnd, 0⟩] = .panicked ∧
    compress 1 [1] [⟨.streamEnd, 0⟩] ≠ .success ∧
    (∀ f2 r2 k2 rest2, 0 < f2 → 0 < r2 →
      chunkLoop f2 r2 (⟨.streamEnd, k2⟩ :: rest2) = .error .panicked) ∧
    finishLoop 1 [⟨.streamEnd, 0⟩] = .success :=
  c6_streamend_outside_finalization 1 1 0 [] [] (by decide) (by decide)

/-- C5: for a regular-file response whose negotiated algorithm is
completed in the cache for the response's path (and whose file name is
a present, UTF-8 name), `rewrite` renames the addressed path to the
algorithm-suffixed sibling (original name, a dot, the algorithm token),
appends a `Content-Encoding` header carrying the token, and appends a
`Content-Type` header derived from the original, pre-rename path
whenever one is derivable; no dispatch is issued. -/
theorem c5_ready_rewrite (c : Cache) (accept : List String) (f : FileResp)
    (a : Algorithm) (nb : OsStr) (s : String)
    (halgo : get_valid accept = some a)
    (hready : is_ready c f.path a = true)
    (hname : f.path.file_name = some nb)
    (hstr : to_str nb = some s) :
    rewrite c accept (some (.file f)) =
      (some (.file {
        path := { parent := f.path.parent,
                  file_name := some (utf8Encode (s ++ "." ++ a.name)) },
        headers :=
          (match content_type_from_path f.path with
            | some ct => f.headers ++ [("Content-Type", ct)]
            | none => f.headers) ++ [("Content-Encoding", a.name)] }), []) := by
  simp [rewrite, halgo, hready, RPath.with_file_name, hname, hstr]

/-- Closed instance of `c5_ready_rewrite`: `index.txt`, ready for gzip,
is rewritten to `index.txt.gzip` with a content type taken from the
`txt` extension of the original name. -/
theorem c5_ready_rewrite_witness :
    rewrite [(pEx, ⟨[.Gzip], []⟩)] ["gzip"] (some (.file ⟨pEx, []⟩)) =
      (some (.file {
        path := { parent := [], file_name := some (utf8Encode "index.txt.gzip") },
        headers := [("Content-Type", "text/plain; charset=utf-8"),
                    ("Content-Encoding", "gzip")] }), []) :=
  (c5_ready_rewrite [(pEx, ⟨[.Gzip], []⟩)] ["gzip"] ⟨pEx, []⟩ .Gzip
      (utf8Encode "index.txt") "index.txt"
      (by decide) (by decide) (by decide) (by decide)).trans (by decide)

end RCL
